import Mathlib

/-!
Verification of the FireCMS entity-collection / schema-editor subsystem.

The definitions below are a shallow embedding of the repository's code:
* the reference-selection dialog (`ReferenceDialog`: initial fetch,
  toggle selection, entity click, clear),
* the collection table's bulk-delete enablement,
* the schema editor (id auto-derivation effect, drag-and-drop move
  validation `isValidDrag`, `onDragEnd`, pending-move confirmation,
  save submission),
* the property-tree model (`propertiesToTree` / `treeToProperties`).

Functions of the repository that are not part of the source snapshot
(only their callers are) are modelled from the specification and marked
as such in their doc comments.
-/

set_option maxHeartbeats 1000000

namespace FireCMS

/-- An entity record: identity plus an opaque payload standing for the
`values` mapping. Membership tests in the code are by `id`. -/
structure Entity where
  id : String
  blob : String
deriving DecidableEq, Repr

/-! ## Collection table: bulk delete enablement (EntityCollectionTable.tsx) -/

/-- `selectedEntities.every((entity) => canDelete(...))` from
`toolbarActionsBuilder`. The permission check is the external
collaborator `canDelete`, abstracted as a boolean function. -/
def multipleDeleteEnabled (canDel : Entity → Bool) (selectedEntities : List Entity) : Bool :=
  selectedEntities.all canDel

/-- `disabled={!(selectedEntities?.length) || !multipleDeleteEnabled}` on the
bulk-delete button: disabled when the selection is empty or some selected
entity is not deletable. -/
def bulkDeleteDisabled (canDel : Entity → Bool) (selectedEntities : List Entity) : Bool :=
  (selectedEntities.length == 0) || !(multipleDeleteEnabled canDel selectedEntities)

/-- The button is enabled when it is not disabled. -/
def bulkDeleteEnabled (canDel : Entity → Bool) (selectedEntities : List Entity) : Bool :=
  !(bulkDeleteDisabled canDel selectedEntities)

/-! ## Reference dialog (ReferenceDialog) -/

/-- Outgoing callback invocations and dialog-context actions produced by a
dialog event handler, in invocation order. -/
inductive DialogEffect where
  | singleSelected (e : Option Entity)
  | multiSelected (es : List Entity)
  | closeDialog
deriving DecidableEq, Repr

/-- The props of the dialog that the handlers branch on: `multiselect`
plus whether the optional callbacks were supplied. -/
structure DialogConfig where
  multiselect : Bool
  hasSingleCallback : Bool
  hasMultiCallback : Bool
deriving DecidableEq, Repr

/-- The dialog's internal state: `selectedEntities` is `none` while the
initial fetch has not settled, `some list` afterwards. -/
structure DialogState where
  selectedEntities : Option (List Entity)
deriving DecidableEq, Repr

/-- The initial-selection effect: with ids supplied, every entity is
fetched (`Promise.all`) and the settled results are filtered for
`undefined` (not-found) before the single `setSelectedEntities` call;
without ids the selection is set to `[]`. -/
def initialSelectionFetch (fetch : String → Option Entity)
    (selectedEntityIds : Option (List String)) : List Entity :=
  match selectedEntityIds with
  | some ids => (ids.map fetch).filterMap (fun x => x)
  | none => []

/-- The sequence of `setSelectedEntities` payloads the initial effect
performs: exactly one state transition, carrying the aggregate result. -/
def initialSelectionUpdates (fetch : String → Option Entity)
    (selectedEntityIds : Option (List String)) : List (List Entity) :=
  [initialSelectionFetch fetch selectedEntityIds]

/-- `toggleEntitySelection`: if the clicked entity's id is already among the
selected ids, all entries with that id are filtered out; otherwise the
entity is appended. The new list is stored and reported through
`onMultipleEntitiesSelected` when that callback was supplied. -/
def toggleEntitySelection (cfg : DialogConfig) (st : DialogState) (entity : Entity) :
    DialogState × List DialogEffect :=
  match st.selectedEntities with
  | none => (st, [])
  | some sel =>
    let newValue :=
      if (sel.map (fun e => e.id)).contains entity.id then
        sel.filter (fun item => item.id ≠ entity.id)
      else
        sel ++ [entity]
    (⟨some newValue⟩, if cfg.hasMultiCallback then [.multiSelected newValue] else [])

/-- `onEntityClick`: in single-select mode with the single callback supplied,
report the entity and close the dialog; otherwise toggle the selection. -/
def onEntityClick (cfg : DialogConfig) (st : DialogState) (entity : Entity) :
    DialogState × List DialogEffect :=
  if !cfg.multiselect && cfg.hasSingleCallback then
    (st, [.singleSelected (some entity), .closeDialog])
  else
    toggleEntitySelection cfg st entity

/-- `onClear`: in single-select mode report `null`; otherwise report an empty
list through the multiple-selection callback. No state field is written. -/
def onClear (cfg : DialogConfig) (st : DialogState) : DialogState × List DialogEffect :=
  if !cfg.multiselect && cfg.hasSingleCallback then
    (st, [.singleSelected none])
  else if cfg.hasMultiCallback then
    (st, [.multiSelected []])
  else
    (st, [])

/-! ## Property model (models.ts is summarized by the spec's data model) -/

/-- A property descriptor or an opaque builder function. A concrete
property carries its `dataType` and, for `"map"` properties, the nested
properties mapping and its own order list. -/
inductive PropertyOrBuilder where
  | builder : PropertyOrBuilder
  | property (dataType : String) (nested : List (String × PropertyOrBuilder))
      (nestedOrder : List String) : PropertyOrBuilder
deriving Repr

mutual

/-- Decidable equality of properties (the automatic derivation does not
handle the nested list). -/
def decEqPB : (a b : PropertyOrBuilder) → Decidable (a = b)
  | .builder, .builder => isTrue rfl
  | .builder, .property .. => isFalse (fun h => PropertyOrBuilder.noConfusion h)
  | .property .., .builder => isFalse (fun h => PropertyOrBuilder.noConfusion h)
  | .property d1 n1 o1, .property d2 n2 o2 =>
    match String.decEq d1 d2 with
    | isFalse h => isFalse (by intro he; injection he; contradiction)
    | isTrue h1 =>
      match decEqNested n1 n2 with
      | isFalse h => isFalse (by intro he; injection he; contradiction)
      | isTrue h2 =>
        match instDecidableEqList o1 o2 with
        | isFalse h => isFalse (by intro he; injection he; contradiction)
        | isTrue h3 => isTrue (by rw [h1, h2, h3])
termination_by structural a _ => a

/-- Decidable equality of nested property mappings. -/
def decEqNested : (a b : List (String × PropertyOrBuilder)) → Decidable (a = b)
  | [], [] => isTrue rfl
  | [], _ :: _ => isFalse (fun h => List.noConfusion h)
  | _ :: _, [] => isFalse (fun h => List.noConfusion h)
  | (k1, p1) :: r1, (k2, p2) :: r2 =>
    match String.decEq k1 k2 with
    | isFalse h => isFalse (by intro he; injection he with h1 h2; injection h1; contradiction)
    | isTrue hk =>
      match decEqPB p1 p2 with
      | isFalse h => isFalse (by intro he; injection he with h1 h2; injection h1; contradiction)
      | isTrue hp =>
        match decEqNested r1 r2 with
        | isFalse h => isFalse (by intro he; injection he; contradiction)
        | isTrue hr => isTrue (by rw [hk, hp, hr])
termination_by structural a _ => a

end

instance : DecidableEq PropertyOrBuilder := decEqPB

/-- The keys of a properties mapping. -/
def keysOf (l : List (String × PropertyOrBuilder)) : List String :=
  l.map (fun e => e.1)

/-- First-match lookup in a properties mapping. -/
def lookupStr (k : String) : List (String × PropertyOrBuilder) → Option PropertyOrBuilder
  | [] => none
  | (k', pb) :: rest => if k' = k then some pb else lookupStr k rest

/-- No key occurs twice. -/
def nodupStr : List String → Bool
  | [] => true
  | k :: rest => !(rest.contains k) && nodupStr rest

mutual

/-- The EntitySchema invariant at one property: the nested order list is
exactly the nested keys, keys are not repeated, only `"map"` properties
carry nested properties, and the invariant holds recursively. -/
def wfPB : PropertyOrBuilder → Bool
  | .builder => true
  | .property dt nested norder =>
    (keysOf nested == norder) && nodupStr norder
      && (dt == "map" || nested.isEmpty) && wfNested nested
termination_by structural pb => pb

/-- The EntitySchema invariant for a properties mapping, entrywise. -/
def wfNested : List (String × PropertyOrBuilder) → Bool
  | [] => true
  | (_, pb) :: rest => wfPB pb && wfNested rest
termination_by structural l => l

end

/-! ## Tree model (TreeData of the Tree component, as described by the spec) -/

/-- A tree item id: the dotted-path key, represented as its list of path
segments (`"a.b"` is `["a", "b"]`; the root id is `[]`). -/
abbrev ItemId := List String

/-- One tree item: its own id, ordered children ids, and
`data.property` (absent on the root). -/
structure TreeItem where
  id : ItemId
  children : List ItemId
  property : Option PropertyOrBuilder

/-- The derived tree: a root id and the items mapping. -/
structure TreeData where
  rootId : ItemId
  items : List (ItemId × TreeItem)

/-- Lookup of `tree.items[id]`. -/
def findItem (items : List (ItemId × TreeItem)) (i : ItemId) : Option TreeItem :=
  match items with
  | [] => none
  | (k, it) :: rest => if k = i then some it else findItem rest i

/-- The children ids a property node exposes: for a `"map"` property, the
nested order keys appended to the node's path; no children otherwise. -/
def nodeChildren (base : ItemId) : PropertyOrBuilder → List ItemId
  | .builder => []
  | .property dt _ norder =>
      if dt = "map" then norder.map (fun k => base ++ [k]) else []

mutual

/-- Modelled from the spec: the tree items contributed by one property
(`propertiesToTree` of SchemaEditor/util, absent from the snapshot): one
item at the node's dotted path carrying the property, plus, for a `"map"`
property, the items of the nested subtree. -/
def itemsOfPB (base : ItemId) (pb : PropertyOrBuilder) : List (ItemId × TreeItem) :=
  match pb with
  | .builder => [(base, ⟨base, [], some .builder⟩)]
  | .property dt nested norder =>
    (base, ⟨base, nodeChildren base (.property dt nested norder),
       some (.property dt nested norder)⟩)
      :: (if dt = "map" then itemsOfNested base nested else [])
termination_by structural pb

/-- Modelled from the spec: tree items of a whole nested mapping. -/
def itemsOfNested (base : ItemId) : List (String × PropertyOrBuilder) → List (ItemId × TreeItem)
  | [] => []
  | (k, pb) :: rest => itemsOfPB (base ++ [k]) pb ++ itemsOfNested base rest
termination_by structural l => l

end

/-- Modelled from the spec: `propertiesToTree` (`toTree(properties, order)`)
— SchemaEditor/util is not in the snapshot. Walks the order top-down: the
root's children follow the order list, and each property contributes one
item per leaf and nesting level, keyed by dotted path. -/
def propertiesToTree (properties : List (String × PropertyOrBuilder))
    (order : List String) : TreeData :=
  { rootId := [],
    items := ([], ⟨[], order.map (fun k => [k]), none⟩) :: itemsOfNested [] properties }

/-- Modelled from the spec: rebuild a mapping and order list from a list of
children ids, depth-first, left to right (`treeToProperties` of
SchemaEditor/util, absent from the snapshot). Each entry's key is the
last dotted-path segment of its id; a `"map"` property's nested mapping
and order are reconstructed from the item's children. `fuel` bounds the
recursion through the flat items mapping; `none` models a malformed
tree. -/
def readForest (items : List (ItemId × TreeItem)) :
    Nat → List ItemId → Option (List (String × PropertyOrBuilder) × List String)
  | 0, _ => none
  | _ + 1, [] => some ([], [])
  | fuel + 1, cid :: rest =>
    match findItem items cid, cid.getLast? with
    | some it, some k =>
      let entry : Option PropertyOrBuilder :=
        match it.property with
        | some (.property dt nested norder) =>
          if dt = "map" then
            match readForest items fuel it.children with
            | some (ps, os) => some (.property dt ps os)
            | none => none
          else some (.property dt nested norder)
        | some .builder => some .builder
        | none => none
      match entry, readForest items fuel rest with
      | some pb, some (ps, os) => some ((k, pb) :: ps, k :: os)
      | _, _ => none
    | _, _ => none

/-- Modelled from the spec: `treeToProperties` (`fromTree`) — flattens the
derived tree back into the `(properties, propertiesOrder)` pair, starting
from the root's children. `none` models a malformed tree (an id that does
not resolve, or nesting deeper than the items mapping allows). -/
def treeToProperties (t : TreeData) :
    Option (List (String × PropertyOrBuilder) × List String) :=
  match findItem t.items t.rootId with
  | some root => readForest t.items t.items.length root.children
  | none => none

/-! ## Drag-and-drop validation and the schema editor form (SchemaEditor) -/

/-- A drag source: parent item id and index within its children. -/
structure TreeSourcePosition where
  parentId : ItemId
  index : Nat
deriving DecidableEq, Repr

/-- A drag destination: parent item id and an optional index
(`undefined` when the drop zone is ambiguous). -/
structure TreeDestinationPosition where
  parentId : ItemId
  index : Option Nat
deriving DecidableEq, Repr

/-- `isValidDrag` from SchemaEditor: resolves the dragged item, rejects
builder (function) properties and undefined destination indexes, accepts
drops on the root, and otherwise requires the destination parent's
property to be an object with `dataType === "map"`. `none` models a
thrown lookup error (`tree.items[...]` being `undefined`). -/
def isValidDrag (tree : TreeData) (source : TreeSourcePosition)
    (destination : TreeDestinationPosition) : Option Bool := do
  let sourceParent ← findItem tree.items source.parentId
  let draggedPropertyId ← sourceParent.children[source.index]?
  let draggedItem ← findItem tree.items draggedPropertyId
  match draggedItem.property with
  | some .builder => return false
  | _ =>
    match destination.index with
    | none => return false
    | some _ =>
      if destination.parentId = tree.rootId then
        return true
      else do
        let destinationItem ← findItem tree.items destination.parentId
        let destinationItem2 ← findItem tree.items destinationItem.id
        match destinationItem2.property with
        | some (.property dt _ _) => return (dt == "map")
        | _ => return false

/-- Remove the element at an index (identity when out of range). -/
def removeAt : Nat → List ItemId → List ItemId
  | _, [] => []
  | 0, _ :: l => l
  | n + 1, y :: l => y :: removeAt n l

/-- Insert an element at an index (append when out of range). -/
def insertAt : Nat → ItemId → List ItemId → List ItemId
  | 0, x, l => x :: l
  | _ + 1, x, [] => [x]
  | n + 1, x, y :: l => y :: insertAt n x l

/-- Rewrite one item's children list in the items mapping. -/
def setChildren (items : List (ItemId × TreeItem)) (pid : ItemId)
    (f : List ItemId → List ItemId) : List (ItemId × TreeItem) :=
  items.map (fun e =>
    if e.1 = pid then (e.1, ⟨e.2.id, f e.2.children, e.2.property⟩) else e)

/-- Modelled from the spec: `moveItemOnTree` (the Tree component is not in
the snapshot) — removes the item at the source position from the source
parent's child list and inserts it into the destination parent's child
list at the destination index (at the end when the index is absent); the
moved node's subtree is untouched. -/
def moveItemOnTree (t : TreeData) (source : TreeSourcePosition)
    (destination : TreeDestinationPosition) : TreeData :=
  match findItem t.items source.parentId with
  | none => t
  | some sp =>
    match sp.children[source.index]? with
    | none => t
    | some movedId =>
      let items1 := setChildren t.items source.parentId (fun cs => removeAt source.index cs)
      let items2 := setChildren items1 destination.parentId
        (fun cs => insertAt (destination.index.getD cs.length) movedId cs)
      { rootId := t.rootId, items := items2 }

/-- Modelled from the spec: `sortProperties` (util/schemas is not in the
snapshot) — arranges the mapping's entries to follow the order list. -/
def sortProperties (properties : List (String × PropertyOrBuilder))
    (order : List String) : List (String × PropertyOrBuilder) :=
  order.filterMap (fun k => (lookupStr k properties).map (fun pb => (k, pb)))

/-- The schema-editor form state the drag flow touches: the draft's
properties mapping and order, and the pending cross-parent move awaiting
confirmation. -/
structure EditorState where
  properties : List (String × PropertyOrBuilder)
  propertiesOrder : List String
  pendingMove : Option (TreeSourcePosition × TreeDestinationPosition)

/-- The memoized tree of `SchemaEditorForm`:
`propertiesToTree(sortProperties(values.properties, values.propertiesOrder))`. -/
def editorTree (st : EditorState) : TreeData :=
  propertiesToTree (sortProperties st.properties st.propertiesOrder) st.propertiesOrder

/-- `doPropertyMove`: move the item on the memoized tree, flatten the new
tree, and write both `properties` and `propertiesOrder` back into the
form state. (A flattening failure, impossible on the derived tree,
leaves the state unchanged.) -/
def doPropertyMove (st : EditorState) (source : TreeSourcePosition)
    (destination : TreeDestinationPosition) : EditorState :=
  match treeToProperties (moveItemOnTree (editorTree st) source destination) with
  | some (ps, os) => { st with properties := ps, propertiesOrder := os }
  | none => st

/-- `onDragEnd`: no destination or an invalid drag is a no-op; a valid drag
across different parents is parked in `pendingMove` for confirmation; a
valid drag within one parent is applied immediately. -/
def onDragEnd (st : EditorState) (source : TreeSourcePosition)
    (destination : Option TreeDestinationPosition) : EditorState :=
  match destination with
  | none => st
  | some dest =>
    if isValidDrag (editorTree st) source dest = some true then
      if source.parentId ≠ dest.parentId then
        { st with pendingMove := some (source, dest) }
      else
        doPropertyMove st source dest
    else
      st

/-- The `PendingMoveDialog` accept handler: clear the pending move, then
apply it. -/
def acceptPendingMove (st : EditorState) : EditorState :=
  match st.pendingMove with
  | some (s, d) => doPropertyMove { st with pendingMove := none } s d
  | none => { st with pendingMove := none }

/-- The `PendingMoveDialog` cancel handler: clear the pending move only. -/
def cancelPendingMove (st : EditorState) : EditorState :=
  { st with pendingMove := none }

/-- The confirmation copy shown by `PendingMoveDialog`. -/
def pendingMoveDialogText : String :=
  "You are moving one property from one context to another. " ++
  "This will not transfer the data, only modify the schema."

/-! ## Schema id auto-derivation (SchemaEditorForm id effect) -/

/-- Modelled from the spec: `toSnakeCase` (util/strings is not in the
snapshot) — the slug transformation: word boundaries (uppercase letters,
spaces) become underscores and letters are lowered, so "Product" becomes
"product". -/
def snakeChars : List Char → Bool → List Char
  | [], _ => []
  | c :: rest, atStart =>
    if c.isUpper then
      (if atStart then [c.toLower] else ['_', c.toLower]) ++ snakeChars rest false
    else if c = ' ' then
      '_' :: snakeChars rest true
    else
      c :: snakeChars rest false

/-- Modelled from the spec: the slug/snake-case transformation of a name. -/
def toSnakeCase (s : String) : String :=
  String.mk (snakeChars s.data true)

/-- The form state the id-derivation effect reads: whether the schema is
new, whether `id` was touched, and the two field values. -/
structure IdNameState where
  isNewSchema : Bool
  idTouched : Bool
  id : String
  name : String
deriving DecidableEq, Repr

/-- The id-derivation effect: when `id` is untouched, the schema is new and
`name` is truthy (non-empty), set `id` to `toSnakeCase(name)`. -/
def idDerivationEffect (st : IdNameState) : IdNameState :=
  if !st.idTouched && st.isNewSchema && !(st.name == "") then
    { st with id := toSnakeCase st.name }
  else
    st

/-- A change to the name field followed by the effect run it triggers. -/
def setName (st : IdNameState) (n : String) : IdNameState :=
  idDerivationEffect { st with name := n }

/-- A manual edit of the id field: sets the value and the touched flag. -/
def editIdManually (st : IdNameState) (v : String) : IdNameState :=
  { st with id := v, idTouched := true }

/-! ## Schema save (SchemaEditor.saveSchema and the Formik onSubmit) -/

/-- The schema draft held by the editor form. -/
structure SchemaDraft where
  id : String
  name : String
  properties : List (String × PropertyOrBuilder)
  propertiesOrder : List String

/-- Modelled from the spec: `prepareSchemaForPersistence` (util/schemas is
not in the snapshot) — the structural normalization pass (sorting the
properties per the order list) applied before persisting. -/
def prepareSchemaForPersistence (s : SchemaDraft) : SchemaDraft :=
  { s with properties := sortProperties s.properties s.propertiesOrder }

/-- A snackbar notification surfaced to the user. -/
inductive Notification where
  | success (message : String)
  | failure (title : String) (message : String)

/-- Observable session state around a save: the draft and its dirty flag,
notifications shown, schemas handed to the persistence collaborator, and
the values `handleClose` was notified with. -/
structure SaveSessionState where
  draft : SchemaDraft
  dirty : Bool
  notifications : List Notification
  persistedCalls : List SchemaDraft
  closedWith : List SchemaDraft

/-- `saveSchema`: normalize the draft, call
`configurationPersistence.saveSchema`, then either notify success and
call `handleClose(schema)` (resolving `true`) or notify the error
(resolving `false` — the rejection is caught inside `saveSchema`). -/
def saveSchema (persistSucceeds : Bool) (st : SaveSessionState) :
    SaveSessionState × Bool :=
  let newSchema := prepareSchemaForPersistence st.draft
  let st1 := { st with persistedCalls := st.persistedCalls ++ [newSchema] }
  if persistSucceeds then
    ({ st1 with
        notifications := st1.notifications ++ [.success "Schema updated"],
        closedWith := st1.closedWith ++ [st.draft] }, true)
  else
    ({ st1 with
        notifications :=
          st1.notifications ++ [.failure "Error persisting schema" "Details in the console"] },
      false)

/-- The Formik `onSubmit`:
`saveSchema(newSchema).then(() => formikHelpers.resetForm({ values: newSchema }))`.
Because `saveSchema` resolves on both outcomes, `resetForm` — which keeps
the draft values but resets the dirty flag — runs unconditionally. -/
def onSubmit (persistSucceeds : Bool) (st : SaveSessionState) : SaveSessionState :=
  let st1 := (saveSchema persistSucceeds st).1
  { st1 with dirty := false }

/-! ## Measures used to reason about the tree functions -/

mutual

/-- Structural size of a property (used for induction over the nested
property structure). -/
def sizePB : PropertyOrBuilder → Nat
  | .builder => 1
  | .property _ nested _ => 1 + sizeN nested
termination_by structural pb => pb

/-- Structural size of a nested mapping. -/
def sizeN : List (String × PropertyOrBuilder) → Nat
  | [] => 0
  | (_, pb) :: rest => sizePB pb + sizeN rest
termination_by structural l => l

end

mutual

/-- The fuel `readForest` consumes below one property node. -/
def needPB : PropertyOrBuilder → Nat
  | .builder => 0
  | .property dt nested _ => if dt = "map" then needNested nested else 0
termination_by structural pb => pb

/-- The fuel `readForest` consumes on a whole level. -/
def needNested : List (String × PropertyOrBuilder) → Nat
  | [] => 1
  | (_, pb) :: rest => 1 + max (needPB pb) (needNested rest)
termination_by structural l => l

end

/-! ## Sample fixtures used by concrete checks -/

/-- A small schema: a `"map"` property with one nested child, a string
property, and a builder property. -/
def sampleProperties : List (String × PropertyOrBuilder) :=
  [("address", .property "map" [("city", .property "string" [] [])] ["city"]),
   ("name", .property "string" [] []),
   ("builderProp", .builder)]

/-- The matching order list. -/
def sampleOrder : List String := ["address", "name", "builderProp"]

/-- A schema-editor state over the sample schema with no pending move. -/
def sampleEditorState : EditorState := ⟨sampleProperties, sampleOrder, none⟩

/-! ## Theorems -/

/-- Helper: every property has positive size. -/
theorem sizePB_pos (pb : PropertyOrBuilder) : 1 ≤ sizePB pb := by
  cases pb <;> simp [sizePB]

/-- Helper: simultaneous induction principle over the nested property
structure (a property and its nested mapping). -/
theorem nestedRec (motivePB : PropertyOrBuilder → Prop)
    (motiveL : List (String × PropertyOrBuilder) → Prop)
    (hb : motivePB .builder)
    (hp : ∀ dt nested norder, motiveL nested → motivePB (.property dt nested norder))
    (hnil : motiveL [])
    (hcons : ∀ k pb rest, motivePB pb → motiveL rest → motiveL ((k, pb) :: rest)) :
    (∀ pb, motivePB pb) ∧ (∀ l, motiveL l) := by
  have main : ∀ n : Nat, (∀ pb, sizePB pb ≤ n → motivePB pb) ∧
      (∀ l, sizeN l ≤ n → motiveL l) := by
    intro n
    induction n with
    | zero =>
      constructor
      · intro pb h
        have := sizePB_pos pb
        omega
      · intro l h
        cases l with
        | nil => exact hnil
        | cons e rest =>
          obtain ⟨k, pb⟩ := e
          have h1 := sizePB_pos pb
          simp [sizeN] at h
          omega
    | succ n ih =>
      have hA : ∀ pb, sizePB pb ≤ n + 1 → motivePB pb := by
        intro pb hle
        cases pb with
        | builder => exact hb
        | property dt nested norder =>
          apply hp
          apply ih.2
          simp [sizePB] at hle
          omega
      refine ⟨hA, ?_⟩
      intro l hle
      cases l with
      | nil => exact hnil
      | cons e rest =>
        obtain ⟨k, pb⟩ := e
        simp [sizeN] at hle
        have h1 := sizePB_pos pb
        exact hcons k pb rest (hA pb (by omega)) (ih.2 rest (by omega))
  exact ⟨fun pb => (main (sizePB pb)).1 pb le_rfl, fun l => (main (sizeN l)).2 l le_rfl⟩

/-- Helper: `findItem` unfolded on a cons cell. -/
theorem findItem_cons (k : ItemId) (it : TreeItem) (rest : List (ItemId × TreeItem))
    (i : ItemId) :
    findItem ((k, it) :: rest) i = if k = i then some it else findItem rest i := rfl

/-- Helper: `findItem` over an append searches the left part first. -/
theorem findItem_append (a b : List (ItemId × TreeItem)) (i : ItemId) :
    findItem (a ++ b) i = match findItem a i with
      | some it => some it
      | none => findItem b i := by
  induction a with
  | nil => simp [findItem]
  | cons e rest ih =>
    obtain ⟨k, it⟩ := e
    by_cases h : k = i
    · simp [findItem_cons, h]
    · simp [findItem_cons, h, ih]

/-- Helper: `findItem` misses when no key matches. -/
theorem findItem_eq_none (items2 : List (ItemId × TreeItem)) (i : ItemId)
    (h : ∀ e ∈ items2, e.1 ≠ i) : findItem items2 i = none := by
  induction items2 with
  | nil => rfl
  | cons e rest ih =>
    obtain ⟨k, it⟩ := e
    have hk : k ≠ i := h (k, it) (by simp)
    rw [findItem_cons, if_neg hk]
    exact ih (fun e he => h e (by simp [he]))

/-- Helper: `keysOf` on a cons cell. -/
theorem keysOf_cons (k : String) (pb : PropertyOrBuilder)
    (rest : List (String × PropertyOrBuilder)) :
    keysOf ((k, pb) :: rest) = k :: keysOf rest := rfl

/-- Helper: `itemsOfNested` on a cons cell. -/
theorem itemsOfNested_cons (base : ItemId) (k : String) (pb : PropertyOrBuilder)
    (rest : List (String × PropertyOrBuilder)) :
    itemsOfNested base ((k, pb) :: rest)
      = itemsOfPB (base ++ [k]) pb ++ itemsOfNested base rest := by
  simp [itemsOfNested]

/-- Helper: the item stored at a node's own path. -/
theorem findItem_itemsOfPB_self (pb : PropertyOrBuilder) (base : ItemId) :
    findItem (itemsOfPB base pb) base
      = some ⟨base, nodeChildren base pb, some pb⟩ := by
  cases pb <;> simp [itemsOfPB, findItem_cons, nodeChildren]

/-- Helper: every id contributed by a subtree extends the subtree's root
path, and every id contributed by a level starts with one of the level's
keys. -/
theorem itemsOf_id_shapes :
    (∀ pb : PropertyOrBuilder, ∀ (base i : ItemId) (it : TreeItem),
      (i, it) ∈ itemsOfPB base pb → ∃ q, i = base ++ q)
    ∧ (∀ l : List (String × PropertyOrBuilder), ∀ (base i : ItemId) (it : TreeItem),
      (i, it) ∈ itemsOfNested base l → ∃ k q, k ∈ keysOf l ∧ i = base ++ k :: q) := by
  apply nestedRec
  · intro base i it hmem
    simp [itemsOfPB] at hmem
    exact ⟨[], by simp [hmem.1]⟩
  · intro dt nested norder ihL base i it hmem
    rw [itemsOfPB] at hmem
    rcases List.mem_cons.mp hmem with h1 | h2
    · have : i = base := congrArg Prod.fst h1
      exact ⟨[], by simp [this]⟩
    · by_cases hdt : dt = "map"
      · rw [if_pos hdt] at h2
        obtain ⟨k, q, _, hq⟩ := ihL base i it h2
        exact ⟨k :: q, by simp [hq]⟩
      · rw [if_neg hdt] at h2
        exact absurd h2 (List.not_mem_nil _)
  · intro base i it hmem
    exact absurd hmem (List.not_mem_nil _)
  · intro k pb rest ihPB ihL base i it hmem
    rw [itemsOfNested_cons] at hmem
    rcases List.mem_append.mp hmem with h1 | h2
    · obtain ⟨q, hq⟩ := ihPB (base ++ [k]) i it h1
      exact ⟨k, q, by simp [keysOf_cons], by simp [hq]⟩
    · obtain ⟨k2, q, hk2, hq⟩ := ihL base i it h2
      exact ⟨k2, q, by simp [keysOf_cons, hk2], hq⟩

/-- Helper: a subtree's items contain no id outside the extensions of its
root path. -/
theorem findItem_itemsOfPB_none (pb : PropertyOrBuilder) (base2 target : ItemId)
    (h : ∀ q, target ≠ base2 ++ q) : findItem (itemsOfPB base2 pb) target = none := by
  apply findItem_eq_none
  intro e he heq
  obtain ⟨q, hq⟩ := itemsOf_id_shapes.1 pb base2 e.1 e.2 he
  rw [heq] at hq
  exact h q hq

/-- Helper: a level's items contain no id whose next segment is not one of
the level's keys. -/
theorem findItem_itemsOfNested_none (l : List (String × PropertyOrBuilder))
    (base : ItemId) (k : String) (p : List String)
    (h : k ∉ keysOf l) : findItem (itemsOfNested base l) (base ++ k :: p) = none := by
  apply findItem_eq_none
  intro e he heq
  obtain ⟨k2, q, hk2, hq⟩ := itemsOf_id_shapes.2 l base e.1 e.2 he
  rw [heq] at hq
  have h2 : k :: p = k2 :: q := List.append_cancel_left hq
  injection h2 with h3 _
  exact h (h3 ▸ hk2)

/-- Helper: every subtree contributes at least its own node. -/
theorem itemsOfPB_length_pos (pb : PropertyOrBuilder) (base : ItemId) :
    1 ≤ (itemsOfPB base pb).length := by
  cases pb <;> simp [itemsOfPB]

/-- Helper: the fuel needed to flatten is bounded by the number of items
generated. -/
theorem needFuel_le_length :
    (∀ pb : PropertyOrBuilder, ∀ base : ItemId,
      needPB pb ≤ (itemsOfPB base pb).length)
    ∧ (∀ l : List (String × PropertyOrBuilder), ∀ base : ItemId,
      needNested l ≤ (itemsOfNested base l).length + 1) := by
  apply nestedRec
  · intro base
    simp [needPB, itemsOfPB]
  · intro dt nested norder ih base
    by_cases hdt : dt = "map"
    · have := ih base
      simp [needPB, itemsOfPB, hdt]
      omega
    · simp [needPB, itemsOfPB, hdt]
  · intro base
    simp [needNested, itemsOfNested]
  · intro k pb rest ihPB ihL base
    have h1 := ihPB (base ++ [k])
    have h2 := ihL base
    have h3 := itemsOfPB_length_pos pb (base ++ [k])
    have h4 : max (needPB pb) (needNested rest)
        ≤ (itemsOfPB (base ++ [k]) pb).length + (itemsOfNested base rest).length :=
      Nat.max_le.mpr ⟨by omega, by omega⟩
    rw [needNested, itemsOfNested_cons, List.length_append]
    omega

/-- Helper (main flattening lemma): inside any items mapping that agrees
with the generated subtree items on all relevant ids, `readForest`
recovers exactly the nested mapping and order the subtree was generated
from, provided the EntitySchema invariant holds and the fuel suffices. -/
theorem readForest_itemsOf :
    (∀ pb : PropertyOrBuilder, ∀ (base : ItemId) (items : List (ItemId × TreeItem)) (fuel : Nat),
      wfPB pb = true →
      (∀ p : List String,
        findItem items (base ++ p) = findItem (itemsOfPB base pb) (base ++ p)) →
      needPB pb ≤ fuel →
      ∀ dt nested norder, pb = .property dt nested norder → dt = "map" →
        readForest items fuel (nodeChildren base pb) = some (nested, norder))
    ∧ (∀ l : List (String × PropertyOrBuilder),
        ∀ (base : ItemId) (items : List (ItemId × TreeItem)) (fuel : Nat),
      wfNested l = true →
      nodupStr (keysOf l) = true →
      (∀ (k : String) (p : List String), k ∈ keysOf l →
        findItem items (base ++ k :: p) = findItem (itemsOfNested base l) (base ++ k :: p)) →
      needNested l ≤ fuel →
      readForest items fuel ((keysOf l).map (fun k2 => base ++ [k2])) = some (l, keysOf l)) := by
  apply nestedRec
  · intro base items fuel _ _ _ dt nested norder heq _
    exact absurd heq (by simp)
  · intro dt nested norder ihL base items fuel hwf hfind hfuel dt2 nested2 norder2 heq hdt
    injection heq with e1 e2 e3
    subst e1
    subst e2
    subst e3
    subst hdt
    simp only [wfPB, Bool.and_eq_true, beq_iff_eq] at hwf
    obtain ⟨⟨⟨hkeys, hnodup⟩, _⟩, hwfn⟩ := hwf
    simp only [needPB, if_pos rfl] at hfuel
    have hne : ∀ (k : String) (p : List String), base ≠ base ++ k :: p := by
      intro k p hcontra
      have h2 := List.append_right_eq_self.mp hcontra.symm
      simp at h2
    have hfind2 : ∀ (k : String) (p : List String), k ∈ keysOf nested →
        findItem items (base ++ k :: p)
          = findItem (itemsOfNested base nested) (base ++ k :: p) := by
      intro k p _
      rw [hfind (k :: p), itemsOfPB]
      rw [findItem_cons, if_neg (hne k p), if_pos rfl]
    have hres := ihL base items fuel hwfn (by rw [hkeys]; exact hnodup) hfind2 hfuel
    rw [nodeChildren, if_pos rfl, ← hkeys]
    rw [hres, hkeys]
  · intro base items fuel _ _ _ hfuel
    rw [needNested] at hfuel
    cases fuel with
    | zero => omega
    | succ f => rfl
  · intro k pb rest ihPB ihL base items fuel hwf hnodup hfind hfuel
    rw [wfNested, Bool.and_eq_true] at hwf
    obtain ⟨hwfPB, hwfRest⟩ := hwf
    rw [keysOf_cons, nodupStr, Bool.and_eq_true] at hnodup
    obtain ⟨hkNotMem, hnodupRest⟩ := hnodup
    have hkmem : k ∉ keysOf rest := by
      intro hmem
      have h2 : (keysOf rest).contains k = true := by simpa using hmem
      rw [h2] at hkNotMem
      simp at hkNotMem
    rw [needNested] at hfuel
    cases fuel with
    | zero => omega
    | succ f =>
    have hmax := Nat.max_le.mp (by omega : max (needPB pb) (needNested rest) ≤ f)
    obtain ⟨hfuelPB, hfuelRest⟩ := hmax
    have hhead : findItem items (base ++ [k])
        = some ⟨base ++ [k], nodeChildren (base ++ [k]) pb, some pb⟩ := by
      have h0 := hfind k [] (by simp [keysOf_cons])
      rw [h0, itemsOfNested_cons, findItem_append, findItem_itemsOfPB_self]
    have hfindPB : ∀ p : List String,
        findItem items ((base ++ [k]) ++ p)
          = findItem (itemsOfPB (base ++ [k]) pb) ((base ++ [k]) ++ p) := by
      intro p
      cases p with
      | nil => rw [List.append_nil, hhead, findItem_itemsOfPB_self]
      | cons k2 p2 =>
        have hassoc : (base ++ [k]) ++ (k2 :: p2) = base ++ (k :: k2 :: p2) := by simp
        rw [hassoc, hfind k (k2 :: p2) (by simp [keysOf_cons]), itemsOfNested_cons,
          findItem_append]
        cases hfi : findItem (itemsOfPB (base ++ [k]) pb) (base ++ k :: k2 :: p2) with
        | some it => rfl
        | none => exact findItem_itemsOfNested_none rest base k (k2 :: p2) hkmem
    have hfindRest : ∀ (k2 : String) (p : List String), k2 ∈ keysOf rest →
        findItem items (base ++ k2 :: p)
          = findItem (itemsOfNested base rest) (base ++ k2 :: p) := by
      intro k2 p hk2
      rw [hfind k2 p (by simp [keysOf_cons, hk2]), itemsOfNested_cons, findItem_append]
      have hnone : findItem (itemsOfPB (base ++ [k]) pb) (base ++ k2 :: p) = none := by
        apply findItem_itemsOfPB_none
        intro q heq
        have h5 : k2 :: p = k :: q :=
          List.append_cancel_left (by simpa using heq : base ++ k2 :: p = base ++ k :: q)
        injection h5 with h6 _
        exact hkmem (h6 ▸ hk2)
      rw [hnone]
    have hrest := ihL base items f hwfRest hnodupRest hfindRest hfuelRest
    rw [keysOf_cons, List.map_cons]
    simp only [readForest]
    rw [hhead, List.getLast?_concat]
    cases pb with
    | builder => simp [hrest]
    | property dt nested norder =>
      by_cases hdt : dt = "map"
      · subst hdt
        have hchild := ihPB (base ++ [k]) items f hwfPB hfindPB hfuelPB
          "map" nested norder rfl rfl
        simp [hchild, hrest]
      · simp [hdt, hrest]

/-- Helper: a name change never updates the id once the touched flag is
set, and never resets the flag. -/
theorem setName_of_touched (st : IdNameState) (h : st.idTouched = true) (n : String) :
    (setName st n).id = st.id ∧ (setName st n).idTouched = true := by
  simp [setName, idDerivationEffect, h]

/-- Helper: any sequence of name changes on a touched state leaves the id
and the touched flag alone. -/
theorem foldl_setName_of_touched (names : List String) :
    ∀ st : IdNameState, st.idTouched = true →
      (names.foldl setName st).id = st.id ∧ (names.foldl setName st).idTouched = true := by
  induction names with
  | nil => exact fun st h => ⟨rfl, h⟩
  | cons n rest ih =>
    intro st h
    have h2 := setName_of_touched st h n
    have h3 := ih (setName st n) h2.2
    exact ⟨by rw [List.foldl_cons, h3.1, h2.1], by rw [List.foldl_cons]; exact h3.2⟩

/-- C4 (counterexample): with `id` untouched on a new schema, changing the
name to the empty string does not set the id to the slug of the new name
(the effect requires a truthy `values.name`), refuting the claim's
"every change to name". -/
theorem emptyNameChangeKeepsId :
    (setName ⟨true, false, "product", "Product"⟩ "").id ≠ toSnakeCase "" := by
  decide

/-- C4 (amended): on a new schema with `id` untouched, every change to a
non-empty name sets `id` to the snake-case slug of the name ("Product"
slugs to "product"); a change to an empty name leaves `id` alone; and
once `id` is manually edited, no sequence of later name changes alters
it. -/
theorem idAutoDerivation (st : IdNameState) (n : String) :
    (st.idTouched = false → st.isNewSchema = true → n ≠ "" →
      (setName st n).id = toSnakeCase n)
    ∧ (st.idTouched = false → st.isNewSchema = true → n = "" →
      (setName st n).id = st.id)
    ∧ (st.idTouched = true → (setName st n).id = st.id)
    ∧ (∀ (v : String) (names : List String),
        ((names.foldl setName (editIdManually st v))).id = v)
    ∧ toSnakeCase "Product" = "product" := by
  refine ⟨?_, ?_, ?_, ?_, by decide⟩
  · intro h1 h2 h3
    simp [setName, idDerivationEffect, h1, h2, h3]
  · intro h1 h2 h3
    simp [setName, idDerivationEffect, h3]
  · intro h1
    exact (setName_of_touched st h1 n).1
  · intro v names
    have h := foldl_setName_of_touched names (editIdManually st v) rfl
    exact h.1

/-- C4 (witness): concrete run of the amended claim. -/
theorem idAutoDerivation_check :
    (setName ⟨true, false, "", ""⟩ "Product").id = toSnakeCase "Product" :=
  (idAutoDerivation ⟨true, false, "", ""⟩ "Product").1 rfl rfl (by decide)

/-- C5: the bulk-delete button is enabled exactly when the selection is
non-empty and every selected entity passes the `canDelete` check. -/
theorem bulkDeleteEnabled_iff (canDel : Entity → Bool) (selectedEntities : List Entity) :
    bulkDeleteEnabled canDel selectedEntities = true ↔
      selectedEntities ≠ [] ∧ ∀ e ∈ selectedEntities, canDel e = true := by
  simp [bulkDeleteEnabled, bulkDeleteDisabled, multipleDeleteEnabled,
    List.all_eq_true, List.length_eq_zero]

/-- C6: in single-select mode (with the single-selection callback supplied)
a click reports exactly the clicked entity, closes the dialog, leaves the
state alone, and never invokes the multiple-selection callback. -/
theorem singleSelectClick (cfg : DialogConfig) (st : DialogState) (e : Entity)
    (hm : cfg.multiselect = false) (hs : cfg.hasSingleCallback = true) :
    onEntityClick cfg st e = (st, [.singleSelected (some e), .closeDialog])
    ∧ ∀ l, DialogEffect.multiSelected l ∉ (onEntityClick cfg st e).2 := by
  refine ⟨by simp [onEntityClick, hm, hs], fun l => ?_⟩
  simp [onEntityClick, hm, hs]

/-- C6 (witness): concrete single-select click. -/
theorem singleSelectClick_check :
    onEntityClick ⟨false, true, true⟩ ⟨some []⟩ ⟨"e1", ""⟩
      = (⟨some []⟩, [.singleSelected (some ⟨"e1", ""⟩), .closeDialog]) :=
  (singleSelectClick ⟨false, true, true⟩ ⟨some []⟩ ⟨"e1", ""⟩ rfl rfl).1

/-- C7: in multi-select mode every click toggles membership keyed by the
entity id — removal filters out the id keeping the remaining order,
addition appends at the end — and the full updated list is reported
through the multiple-selection callback. -/
theorem multiSelectToggle (cfg : DialogConfig) (st : DialogState) (e : Entity)
    (sel : List Entity)
    (hm : cfg.multiselect = true) (hmc : cfg.hasMultiCallback = true)
    (hsel : st.selectedEntities = some sel) :
    (e.id ∈ sel.map (fun x => x.id) →
      onEntityClick cfg st e
        = (⟨some (sel.filter (fun item => item.id ≠ e.id))⟩,
           [.multiSelected (sel.filter (fun item => item.id ≠ e.id))]))
    ∧ (e.id ∉ sel.map (fun x => x.id) →
      onEntityClick cfg st e = (⟨some (sel ++ [e])⟩, [.multiSelected (sel ++ [e])])) := by
  obtain ⟨ms, hsc, hmcb⟩ := cfg
  obtain ⟨se⟩ := st
  simp only at hm hmc hsel
  subst hm hmc hsel
  have hred : ∀ nv : List Entity,
      (if (sel.map (fun x => x.id)).contains e.id = true then
        ((⟨some (sel.filter (fun item => item.id ≠ e.id))⟩ : DialogState),
          [DialogEffect.multiSelected (sel.filter (fun item => item.id ≠ e.id))])
      else (⟨some (sel ++ [e])⟩, [.multiSelected (sel ++ [e])])) = (⟨some nv⟩, [.multiSelected nv]) →
      onEntityClick ⟨true, hsc, true⟩ ⟨some sel⟩ e = (⟨some nv⟩, [.multiSelected nv]) := by
    intro nv hnv
    rw [← hnv]
    by_cases hc : (sel.map (fun x => x.id)).contains e.id = true
    · rw [if_pos hc]
      show toggleEntitySelection ⟨true, hsc, true⟩ ⟨some sel⟩ e = _
      unfold toggleEntitySelection
      simp only [hc, if_true]
    · rw [if_neg hc]
      have hc2 : (sel.map (fun x => x.id)).contains e.id = false :=
        Bool.eq_false_iff.mpr hc
      show toggleEntitySelection ⟨true, hsc, true⟩ ⟨some sel⟩ e = _
      unfold toggleEntitySelection
      simp only [hc2, Bool.false_eq_true, if_false, if_true]
  constructor
  · intro hmem
    have hc : (sel.map (fun x => x.id)).contains e.id = true := by
      simpa using hmem
    exact hred _ (by rw [if_pos hc])
  · intro hmem
    have hc : ¬((sel.map (fun x => x.id)).contains e.id = true) := by
      simpa using hmem
    exact hred _ (by rw [if_neg hc])

/-- C7 (witness): with `[E1, E2]` pre-selected, toggling `E2` off reports
exactly `[E1]`, in its original position. -/
theorem multiSelectToggle_check :
    onEntityClick ⟨true, false, true⟩ ⟨some [⟨"e1", "x"⟩, ⟨"e2", "y"⟩]⟩ ⟨"e2", "y"⟩
      = (⟨some [⟨"e1", "x"⟩]⟩, [.multiSelected [⟨"e1", "x"⟩]]) :=
  (multiSelectToggle ⟨true, false, true⟩ ⟨some [⟨"e1", "x"⟩, ⟨"e2", "y"⟩]⟩ ⟨"e2", "y"⟩
    [⟨"e1", "x"⟩, ⟨"e2", "y"⟩] rfl rfl rfl).1 (by decide)

/-- C8: the initial-selection effect performs exactly one state transition,
whose payload aggregates all settled fetches: ids that resolve are kept
in order, ids that fail to resolve are silently dropped, and without
supplied ids the selection starts empty. -/
theorem initialSelectionAggregate (fetch : String → Option Entity) :
    initialSelectionUpdates fetch none = [[]]
    ∧ (∀ ids, initialSelectionUpdates fetch (some ids)
        = [(ids.map fetch).filterMap (fun x => x)])
    ∧ (∀ ids, initialSelectionFetch fetch (some ids) = ids.filterMap fetch)
    ∧ (∀ ids1 ids2 i, fetch i = none →
        initialSelectionFetch fetch (some (ids1 ++ i :: ids2))
          = initialSelectionFetch fetch (some (ids1 ++ ids2)))
    ∧ ∀ o, (initialSelectionUpdates fetch o).length = 1 := by
  refine ⟨rfl, fun ids => rfl, fun ids => ?_, fun ids1 ids2 i h => ?_, fun o => rfl⟩
  · simp [initialSelectionFetch, initialSelectionUpdates, List.filterMap_map]
    rfl
  · simp [initialSelectionFetch, List.filterMap_append, List.filterMap_cons, h]

/-- C8 (witness): one resolvable and one unresolvable id. -/
theorem initialSelectionAggregate_check :
    initialSelectionFetch (fun s => if s = "a" then some ⟨"a", ""⟩ else none)
        (some (["a"] ++ "b" :: []))
      = initialSelectionFetch (fun s => if s = "a" then some ⟨"a", ""⟩ else none)
        (some (["a"] ++ [])) :=
  (initialSelectionAggregate (fun s => if s = "a" then some ⟨"a", ""⟩ else none)).2.2.2.1
    ["a"] [] "b" rfl

/-- C10: in multi-select mode, "Clear" reports an empty list through the
multiple-selection callback but performs no state write: the dialog state
is returned unchanged, so a subsequent click behaves exactly as it would
have before the Clear. -/
theorem clearPreservesState (cfg : DialogConfig) (st : DialogState)
    (hm : cfg.multiselect = true) (hmc : cfg.hasMultiCallback = true) :
    onClear cfg st = (st, [.multiSelected []])
    ∧ (onClear cfg st).1 = st
    ∧ ∀ e, onEntityClick cfg (onClear cfg st).1 e = onEntityClick cfg st e := by
  have h : onClear cfg st = (st, [.multiSelected []]) := by
    simp [onClear, hm, hmc]
  exact ⟨h, by rw [h], fun e => by rw [h]⟩

/-- C10 (witness): concrete Clear with a non-empty selection. -/
theorem clearPreservesState_check :
    onClear ⟨true, false, true⟩ ⟨some [⟨"e1", ""⟩]⟩
      = (⟨some [⟨"e1", ""⟩]⟩, [.multiSelected []]) :=
  (clearPreservesState ⟨true, false, true⟩ ⟨some [⟨"e1", ""⟩]⟩ rfl rfl).1

/-- C2: characterization of `isValidDrag` as the code's decision list —
given that the dragged item resolves: a builder property is always
rejected; an undefined destination index is rejected; a destination at
the tree root is accepted; and any other destination is accepted exactly
when the destination parent's property is a concrete property with
`dataType == "map"`. An invalid drag makes `onDragEnd` a no-op. -/
theorem isValidDrag_characterization
    (tree : TreeData) (s : TreeSourcePosition) (d : TreeDestinationPosition)
    {sourceParent draggedItem : TreeItem} {draggedId : ItemId}
    (hsp : findItem tree.items s.parentId = some sourceParent)
    (hcid : sourceParent.children[s.index]? = some draggedId)
    (hdr : findItem tree.items draggedId = some draggedItem) :
    (draggedItem.property = some .builder → isValidDrag tree s d = some false)
    ∧ (draggedItem.property ≠ some .builder → d.index = none →
        isValidDrag tree s d = some false)
    ∧ (draggedItem.property ≠ some .builder → d.index ≠ none → d.parentId = tree.rootId →
        isValidDrag tree s d = some true)
    ∧ (∀ {destItem destItem2 : TreeItem},
        draggedItem.property ≠ some .builder → d.index ≠ none → d.parentId ≠ tree.rootId →
        findItem tree.items d.parentId = some destItem →
        findItem tree.items destItem.id = some destItem2 →
        (isValidDrag tree s d = some true ↔
          ∃ dt nested norder, destItem2.property = some (.property dt nested norder)
            ∧ dt = "map"))
    ∧ (∀ (st : EditorState) (s2 : TreeSourcePosition) (d2 : TreeDestinationPosition),
        isValidDrag (editorTree st) s2 d2 = some false →
        onDragEnd st s2 (some d2) = st) := by
  refine ⟨?_, ?_, ?_, ?_, ?_⟩
  · intro hb
    simp [isValidDrag, hsp, hcid, hdr, hb]
  · intro hnb hdi
    rcases hp : draggedItem.property with _ | pb
    · simp [isValidDrag, hsp, hcid, hdr, hp, hdi]
    · cases pb with
      | builder => exact absurd hp hnb
      | property dt nested norder => simp [isValidDrag, hsp, hcid, hdr, hp, hdi]
  · intro hnb hdi hroot
    obtain ⟨di, hdieq⟩ := Option.ne_none_iff_exists'.mp hdi
    rcases hp : draggedItem.property with _ | pb
    · simp [isValidDrag, hsp, hcid, hdr, hp, hdieq, hroot]
    · cases pb with
      | builder => exact absurd hp hnb
      | property dt nested norder => simp [isValidDrag, hsp, hcid, hdr, hp, hdieq, hroot]
  · intro destItem destItem2 hnb hdi hnr hfd hfd2
    obtain ⟨di, hdieq⟩ := Option.ne_none_iff_exists'.mp hdi
    have hred : isValidDrag tree s d =
        (match destItem2.property with
          | some (.property dt _ _) => some (dt == "map")
          | _ => some false) := by
      rcases hp : draggedItem.property with _ | pb
      · simp [isValidDrag, hsp, hcid, hdr, hp, hdieq, hnr, hfd, hfd2]
      · cases pb with
        | builder => exact absurd hp hnb
        | property dt nested norder =>
          simp [isValidDrag, hsp, hcid, hdr, hp, hdieq, hnr, hfd, hfd2]
    rw [hred]
    rcases hp2 : destItem2.property with _ | pb2
    · simp
    · cases pb2 with
      | builder => simp
      | property dt2 nested2 norder2 =>
        constructor
        · intro heq
          have : (dt2 == "map") = true := by
            simpa using heq
          exact ⟨dt2, nested2, norder2, rfl, by simpa using this⟩
        · rintro ⟨dt3, nested3, norder3, heq3, hdt3⟩
          injection heq3 with h4
          cases h4
          simp [hdt3]
  · intro st s2 d2 hv
    simp only [onDragEnd]
    rw [hv]
    simp

/-- C2 (witness): on the sample tree, dragging the string property into
the `"map"` property at a concrete index is accepted. -/
theorem isValidDrag_characterization_check :
    isValidDrag (editorTree sampleEditorState) ⟨[], 1⟩ ⟨["address"], some 0⟩ = some true :=
  ((isValidDrag_characterization (editorTree sampleEditorState)
      ⟨[], 1⟩ ⟨["address"], some 0⟩ rfl rfl rfl).2.2.2.1
    (by decide) (by decide) (by decide) rfl rfl).mpr
    ⟨"map", [("city", .property "string" [] [])], ["city"], rfl, rfl⟩

/-- C3: a valid drag whose source parent differs from its destination
parent leaves the draft's properties mapping and order untouched and only
records the pending move; accepting the confirmation dialog applies
exactly the move, cancelling restores the original state; a valid drag
within one parent is applied immediately; and the dialog copy states
that the data is not transferred. -/
theorem crossParentMoveConfirmation (st : EditorState) (s : TreeSourcePosition)
    (d : TreeDestinationPosition)
    (hvalid : isValidDrag (editorTree st) s d = some true)
    (hpm : st.pendingMove = none) :
    (s.parentId ≠ d.parentId →
      (onDragEnd st s (some d)).properties = st.properties
      ∧ (onDragEnd st s (some d)).propertiesOrder = st.propertiesOrder
      ∧ (onDragEnd st s (some d)).pendingMove = some (s, d)
      ∧ acceptPendingMove (onDragEnd st s (some d)) = doPropertyMove st s d
      ∧ cancelPendingMove (onDragEnd st s (some d)) = st)
    ∧ (s.parentId = d.parentId → onDragEnd st s (some d) = doPropertyMove st s d)
    ∧ (∃ a b : String, pendingMoveDialogText = a ++ "not transfer the data" ++ b) := by
  obtain ⟨props, order, pm⟩ := st
  simp only at hpm
  subst hpm
  have h1 : onDragEnd ⟨props, order, none⟩ s (some d)
      = if s.parentId ≠ d.parentId then ⟨props, order, some (s, d)⟩
        else doPropertyMove ⟨props, order, none⟩ s d := by
    simp only [onDragEnd]
    rw [if_pos hvalid]
  refine ⟨?_, ?_, ?_⟩
  · intro hne
    rw [h1, if_pos hne]
    exact ⟨rfl, rfl, rfl, rfl, rfl⟩
  · intro he
    rw [h1, if_neg (fun hne => hne he)]
  · exact ⟨"You are moving one property from one context to another. This will ",
      ", only modify the schema.", rfl⟩

/-- C3 (witness): on the sample state, dragging the string property into
the map parks the move as pending without touching the draft. -/
theorem crossParentMoveConfirmation_check :
    (onDragEnd sampleEditorState ⟨[], 1⟩ (some ⟨["address"], some 0⟩)).properties
      = sampleEditorState.properties
    ∧ (onDragEnd sampleEditorState ⟨[], 1⟩ (some ⟨["address"], some 0⟩)).pendingMove
      = some (⟨[], 1⟩, ⟨["address"], some 0⟩) :=
  have h := (crossParentMoveConfirmation sampleEditorState ⟨[], 1⟩ ⟨["address"], some 0⟩
    (by decide) rfl).1 (by decide)
  ⟨h.1, h.2.2.1⟩

/-- C1: the round-trip law. For every `(properties, order)` pair satisfying
the EntitySchema invariant — the order list consists exactly of the
mapping's keys (the mapping is encoded as an association list arranged
per its order list, the arrangement `sortProperties` produces), keys are
not repeated, and the same holds recursively inside `"map"` properties,
whose nested entries the tree addresses by dotted-path keys — flattening
the derived tree returns the original pair:
`treeToProperties (propertiesToTree properties order) = some (properties, order)`. -/
theorem treeToProperties_propertiesToTree
    (properties : List (String × PropertyOrBuilder)) (order : List String)
    (hk : keysOf properties = order) (hnd : nodupStr order = true)
    (hwf : wfNested properties = true) :
    treeToProperties (propertiesToTree properties order) = some (properties, order) := by
  subst hk
  simp only [treeToProperties, propertiesToTree]
  rw [findItem_cons, if_pos rfl]
  have hfind : ∀ (k : String) (p : List String), k ∈ keysOf properties →
      findItem ((([] : ItemId),
            (⟨[], (keysOf properties).map (fun k2 => [k2]), none⟩ : TreeItem))
          :: itemsOfNested [] properties) ([] ++ k :: p)
        = findItem (itemsOfNested [] properties) ([] ++ k :: p) := by
    intro k p _
    rw [findItem_cons, if_neg]
    simp
  have hlen := needFuel_le_length.2 properties ([] : ItemId)
  exact readForest_itemsOf.2 properties []
    ((([] : ItemId), (⟨[], (keysOf properties).map (fun k2 => [k2]), none⟩ : TreeItem))
      :: itemsOfNested [] properties)
    ((([] : ItemId), (⟨[], (keysOf properties).map (fun k2 => [k2]), none⟩ : TreeItem))
      :: itemsOfNested [] properties).length
    hwf hnd hfind (by rw [List.length_cons]; exact hlen)

/-- C1 (witness): concrete round trip over the sample schema (a nested
map, a string property and a builder). -/
theorem treeToProperties_propertiesToTree_check :
    treeToProperties (propertiesToTree sampleProperties sampleOrder)
      = some (sampleProperties, sampleOrder) :=
  treeToProperties_propertiesToTree sampleProperties sampleOrder rfl (by decide) (by decide)

/-- C9: observable outcome of a submit. The failing branch documents the
divergence from the claim: the error is notified and the draft values are
kept, but the dirty flag is cleared even on failure, because `onSubmit`
chains `resetForm` on a promise that `saveSchema` resolves on both
outcomes. The success branch behaves as claimed. -/
theorem submitOutcome :
    ((onSubmit false ⟨⟨"p", "P", [], []⟩, true, [], [], []⟩).notifications
        = [.failure "Error persisting schema" "Details in the console"])
    ∧ ((onSubmit false ⟨⟨"p", "P", [], []⟩, true, [], [], []⟩).draft
        = (⟨⟨"p", "P", [], []⟩, true, [], [], []⟩ : SaveSessionState).draft)
    ∧ ((onSubmit false ⟨⟨"p", "P", [], []⟩, true, [], [], []⟩).closedWith = [])
    ∧ ((onSubmit false ⟨⟨"p", "P", [], []⟩, true, [], [], []⟩).dirty = false)
    ∧ ((onSubmit false ⟨⟨"p", "P", [], []⟩, true, [], [], []⟩).persistedCalls
        = [prepareSchemaForPersistence ⟨"p", "P", [], []⟩])
    ∧ ((onSubmit true ⟨⟨"p", "P", [], []⟩, true, [], [], []⟩).dirty = false)
    ∧ ((onSubmit true ⟨⟨"p", "P", [], []⟩, true, [], [], []⟩).notifications
        = [.success "Schema updated"])
    ∧ ((onSubmit true ⟨⟨"p", "P", [], []⟩, true, [], [], []⟩).closedWith
        = [⟨"p", "P", [], []⟩]) := by
  refine ⟨rfl, rfl, rfl, rfl, rfl, rfl, rfl, rfl⟩

end FireCMS
